import Mathlib

set_option maxRecDepth 8000

namespace AmsPoc

/-!
Shallow embedding of `scripts/automate_bid_adapter.py`.

File texts are modelled as `List Char` (Python `str`).  The JSON library
calls (`json.loads` / `json.dumps(·, indent=4)`) are modelled by an
executable parser and printer over an inductive JSON value type; the two
regular expressions of the script are modelled by dedicated scanning
functions that follow Python `re` semantics for those concrete patterns.
-/

/-- ASCII fragment of Python's whitespace class (`str.strip`, regex `\s`). -/
def isPySpace (c : Char) : Bool :=
  c = ' ' || c = '\t' || c = '\n' || c = '\r' || c = '\x0b' || c = '\x0c'

/-- Python `str.strip()`. -/
def pyStrip (l : List Char) : List Char :=
  ((l.dropWhile isPySpace).reverse.dropWhile isPySpace).reverse

/-- Python `str.rstrip()`. -/
def pyRstrip (l : List Char) : List Char :=
  (l.reverse.dropWhile isPySpace).reverse

/-- JSON whitespace as accepted by `json.loads` (strict: space, tab, LF, CR). -/
def isJsonWs (c : Char) : Bool :=
  c = ' ' || c = '\t' || c = '\n' || c = '\r'

def skipWs (l : List Char) : List Char := l.dropWhile isJsonWs

/-- Value of one hex digit. -/
def hexVal (c : Char) : Option Nat :=
  if '0' ≤ c && c ≤ '9' then some (c.toNat - 48)
  else if 'a' ≤ c && c ≤ 'f' then some (c.toNat - 87)
  else if 'A' ≤ c && c ≤ 'F' then some (c.toNat - 55)
  else none

def hex4 (a b c d : Char) : Option Nat :=
  match hexVal a, hexVal b, hexVal c, hexVal d with
  | some x, some y, some z, some w => some (4096 * x + 256 * y + 16 * z + w)
  | _, _, _, _ => none

/-- JSON values as produced by `json.loads`.  Numbers keep their raw lexeme
(the script never compares or re-serialises numbers in a way its claims
observe). -/
inductive JVal where
  | null : JVal
  | boolean : Bool → JVal
  | num : List Char → JVal
  | str : List Char → JVal
  | arr : List JVal → JVal
  | obj : List (List Char × JVal) → JVal

/-- The single-character JSON string escapes. -/
def escSimple (e : Char) : Option Char :=
  if e = '"' then some '"'
  else if e = '\\' then some '\\'
  else if e = '/' then some '/'
  else if e = 'b' then some '\x08'
  else if e = 'f' then some '\x0c'
  else if e = 'n' then some '\n'
  else if e = 'r' then some '\r'
  else if e = 't' then some '\t'
  else none

/-- Decode a JSON string body after the opening quote (CPython
`py_scanstring`, strict mode: raw control characters are rejected).
Each `\uXXXX` escape is decoded on its own; CPython additionally combines
surrogate pairs, which Lean's `Char` (a Unicode scalar) cannot express as
lone halves — no behaviour of the script observed by the claims depends on
astral-plane escapes.  Returns the decoded content and the input after the
closing quote. -/
def parseStringBody : List Char → Option (List Char × List Char)
  | [] => none
  | c :: rest =>
    if c = '"' then some ([], rest)
    else if c = '\\' then
      match rest with
      | [] => none
      | e :: r =>
        if e = 'u' then
          match r with
          | a :: b :: c2 :: d :: r2 =>
            match hex4 a b c2 d with
            | none => none
            | some n => (parseStringBody r2).map (fun p => (Char.ofNat n :: p.1, p.2))
          | _ => none
        else
          match escSimple e with
          | some ec => (parseStringBody r).map (fun p => (ec :: p.1, p.2))
          | none => none
    else if c.toNat < 32 then none
    else (parseStringBody rest).map (fun p => (c :: p.1, p.2))

def isDigitC (c : Char) : Bool := '0' ≤ c && c ≤ '9'

/-- Exponent part of CPython's NUMBER_RE; if no digit follows, the
exponent is not part of the match. -/
def lexExpAux (acc : List Char) (echar : Char) (l : List Char) : List Char × List Char :=
  let sl := match l with
    | '+' :: r => (['+'], r)
    | '-' :: r => (['-'], r)
    | _ => (([] : List Char), l)
  match (sl.2.span isDigitC) with
  | ([], _) => (acc, echar :: l)
  | (ds, r2) => (acc ++ echar :: (sl.1 ++ ds), r2)

/-- Fraction part; if no digit follows the dot, it is not part of the match. -/
def lexFrac (acc : List Char) (l : List Char) : List Char × List Char :=
  match l with
  | '.' :: r =>
    match r.span isDigitC with
    | ([], _) => (acc, '.' :: r)
    | (ds, r2) => (acc ++ '.' :: ds, r2)
  | _ => (acc, l)

def lexNumTail (acc : List Char) (l : List Char) : List Char × List Char :=
  let fr := lexFrac acc l
  match fr.2 with
  | 'e' :: r => lexExpAux fr.1 'e' r
  | 'E' :: r => lexExpAux fr.1 'E' r
  | _ => fr

/-- Lex a JSON number lexeme (CPython NUMBER_RE: `-?(0|[1-9]\d*)(\.\d+)?([eE][-+]?\d+)?`). -/
def lexNumber (l : List Char) : Option (List Char × List Char) :=
  match l with
  | '-' :: ('0' :: r) => some (lexNumTail ['-', '0'] r)
  | '-' :: (c :: r) =>
    if isDigitC c then
      some (lexNumTail ('-' :: c :: (r.span isDigitC).1) (r.span isDigitC).2)
    else none
  | '0' :: r => some (lexNumTail ['0'] r)
  | c :: r =>
    if isDigitC c then
      some (lexNumTail (c :: (r.span isDigitC).1) (r.span isDigitC).2)
    else none
  | [] => none

/-- Strip a literal prefix (used for the scanner's keyword tests). -/
def stripLit (pre l : List Char) : Option (List Char) :=
  if pre.isPrefixOf l then some (l.drop pre.length) else none

mutual

/-- Parse one JSON value after skipping leading whitespace (CPython
scanner; dispatch is by first character, which is equivalent to CPython's
ordered keyword/number tests because the leading characters are disjoint). -/
def parseVal : Nat → List Char → Option (JVal × List Char)
  | 0, _ => none
  | fuel + 1, cs =>
    match skipWs cs with
    | [] => none
    | c :: rest =>
      if c = '"' then
        match parseStringBody rest with
        | some (s, r) => some (.str s, r)
        | none => none
      else if c = '[' then
        match skipWs rest with
        | [] => none
        | c2 :: r2 =>
          if c2 = ']' then some (.arr [], r2)
          else
            match parseVal fuel (c2 :: r2) with
            | some (v, r3) =>
              match parseArrTail fuel r3 with
              | some (vs, r4) => some (.arr (v :: vs), r4)
              | none => none
            | none => none
      else if c = '\x7b' then
        match skipWs rest with
        | [] => none
        | c2 :: r2 =>
          if c2 = '\x7d' then some (.obj [], r2)
          else if c2 = '"' then
            match parseStringBody r2 with
            | some (k, r3) =>
              match skipWs r3 with
              | [] => none
              | c3 :: r4 =>
                if c3 = ':' then
                  match parseVal fuel r4 with
                  | some (v, r5) =>
                    match parseObjTail fuel r5 with
                    | some (fs, r6) => some (.obj ((k, v) :: fs), r6)
                    | none => none
                  | none => none
                else none
            | none => none
          else none
      else if c = 't' then
        match stripLit ['r', 'u', 'e'] rest with
        | some r => some (.boolean true, r)
        | none => none
      else if c = 'f' then
        match stripLit ['a', 'l', 's', 'e'] rest with
        | some r => some (.boolean false, r)
        | none => none
      else if c = 'n' then
        match stripLit ['u', 'l', 'l'] rest with
        | some r => some (.null, r)
        | none => none
      else if c = 'N' then
        match stripLit ['a', 'N'] rest with
        | some r => some (.num ['N', 'a', 'N'], r)
        | none => none
      else if c = 'I' then
        match stripLit ['n', 'f', 'i', 'n', 'i', 't', 'y'] rest with
        | some r => some (.num ['I', 'n', 'f', 'i', 'n', 'i', 't', 'y'], r)
        | none => none
      else if c = '-' then
        match stripLit ['I', 'n', 'f', 'i', 'n', 'i', 't', 'y'] rest with
        | some r => some (.num ['-', 'I', 'n', 'f', 'i', 'n', 'i', 't', 'y'], r)
        | none =>
          match lexNumber (c :: rest) with
          | some (raw, r) => some (.num raw, r)
          | none => none
      else
        match lexNumber (c :: rest) with
        | some (raw, r) => some (.num raw, r)
        | none => none

/-- Elements of an array after the first one: `, value`* then `]`. -/
def parseArrTail : Nat → List Char → Option (List JVal × List Char)
  | 0, _ => none
  | fuel + 1, cs =>
    match skipWs cs with
    | [] => none
    | c :: r =>
      if c = ']' then some ([], r)
      else if c = ',' then
        match parseVal fuel r with
        | some (v, r2) =>
          match parseArrTail fuel r2 with
          | some (vs, r3) => some (v :: vs, r3)
          | none => none
        | none => none
      else none

/-- Members of an object after the first one: `, "key": value`* then the
closing brace. -/
def parseObjTail : Nat → List Char → Option (List (List Char × JVal) × List Char)
  | 0, _ => none
  | fuel + 1, cs =>
    match skipWs cs with
    | [] => none
    | c :: r =>
      if c = '\x7d' then some ([], r)
      else if c = ',' then
        match skipWs r with
        | [] => none
        | c2 :: r2 =>
          if c2 = '"' then
            match parseStringBody r2 with
            | some (k, r3) =>
              match skipWs r3 with
              | [] => none
              | c3 :: r4 =>
                if c3 = ':' then
                  match parseVal fuel r4 with
                  | some (v, r5) =>
                    match parseObjTail fuel r5 with
                    | some (fs, r6) => some ((k, v) :: fs, r6)
                    | none => none
                  | none => none
                else none
            | none => none
          else none
      else none

end

/-- `json.loads`: the whole text must be exactly one JSON value plus
trailing whitespace.  `none` models a raised `JSONDecodeError`.  The fuel
`4 * length + 4` strictly exceeds the recursion the scanner can perform on
the input (every recursive step consumes at least one character). -/
def jsonParse (t : List Char) : Option JVal :=
  match parseVal (4 * t.length + 4) t with
  | some (v, rest) => if skipWs rest = [] then some v else none
  | none => none

example : jsonParse ("[\"a\"]".toList) = some (.arr [.str ['a']]) := rfl
example : jsonParse ("[1,]".toList) = none := rfl
example : jsonParse (" [\"a\" , \"b\"] ".toList) = some (.arr [.str ['a'], .str ['b']]) := rfl
example : jsonParse ("\x7b\"k\": [1.5e2, true]\x7d".toList)
    = some (.obj [(['k'], .arr [.num ['1', '.', '5', 'e', '2'], .boolean true])]) := rfl
example : jsonParse ("\"a\\nb\"".toList) = some (.str ['a', '\n', 'b']) := rfl

def hexDigitChar (n : Nat) : Char :=
  if n < 10 then Char.ofNat (48 + n) else Char.ofNat (87 + n)

/-- JSON string escaping as done by `json.dumps` for the characters the
script can feed it: quote, backslash, the short control escapes, `\u00XX`
for the remaining control characters.  (CPython with the default
`ensure_ascii=True` would additionally escape non-ASCII characters; both
spellings parse back to the same character, and no claim observes the
serialised bytes of non-ASCII text.) -/
def escChar (c : Char) : List Char :=
  if c = '"' then ['\\', '"']
  else if c = '\\' then ['\\', '\\']
  else if c = '\n' then ['\\', 'n']
  else if c = '\t' then ['\\', 't']
  else if c = '\r' then ['\\', 'r']
  else if c = '\x08' then ['\\', 'b']
  else if c = '\x0c' then ['\\', 'f']
  else if c.toNat < 32 then
    ['\\', 'u', '0', '0', hexDigitChar (c.toNat / 16), hexDigitChar (c.toNat % 16)]
  else [c]

def escape : List Char → List Char
  | [] => []
  | c :: s => escChar c ++ escape s

def pad (lvl : Nat) : List Char := List.replicate (4 * lvl) ' '

mutual

/-- `json.dumps(·, indent=4)`.  Numbers are printed as their stored
lexeme (CPython would print the `repr` of the parsed float/int; the
claims only observe parsed content, not number spellings). -/
def dumpsVal : JVal → Nat → List Char
  | .null, _ => ['n', 'u', 'l', 'l']
  | .boolean true, _ => ['t', 'r', 'u', 'e']
  | .boolean false, _ => ['f', 'a', 'l', 's', 'e']
  | .num raw, _ => raw
  | .str s, _ => '"' :: (escape s ++ ['"'])
  | .arr [], _ => ['[', ']']
  | .arr (v :: vs), lvl =>
    '[' :: '\n' :: (pad (lvl + 1) ++ (dumpsVal v (lvl + 1) ++ (dumpsArrTail vs (lvl + 1)
      ++ ('\n' :: (pad lvl ++ [']'])))))
  | .obj [], _ => ['\x7b', '\x7d']
  | .obj (f :: fs), lvl =>
    '\x7b' :: '\n' :: (pad (lvl + 1) ++ (dumpsField f (lvl + 1) ++ (dumpsObjTail fs (lvl + 1)
      ++ ('\n' :: (pad lvl ++ ['\x7d'])))))

def dumpsArrTail : List JVal → Nat → List Char
  | [], _ => []
  | v :: vs, lvl => ',' :: '\n' :: (pad lvl ++ (dumpsVal v lvl ++ dumpsArrTail vs lvl))

def dumpsField : List Char × JVal → Nat → List Char
  | (k, v), lvl => '"' :: (escape k ++ ('"' :: ':' :: ' ' :: dumpsVal v lvl))

def dumpsObjTail : List (List Char × JVal) → Nat → List Char
  | [], _ => []
  | f :: fs, lvl => ',' :: '\n' :: (pad lvl ++ (dumpsField f lvl ++ dumpsObjTail fs lvl))

end

/-- Python `value in data` for a parsed JSON array: a `str` value equals
only `str` elements. -/
def pyInArr (v : List Char) : List JVal → Bool
  | [] => false
  | e :: rest =>
    (match e with
     | .str s => s == v
     | _ => false) || pyInArr v rest

/-- Python `needle in haystack` on strings (substring test). -/
def pySubstr (needle hay : List Char) : Bool :=
  hay.tails.any (fun t => needle.isPrefixOf t)

/-- `re.search(rf"\"{re.escape(value)}\"\s*\]", text)`: the quoted value
followed by optional whitespace and a closing bracket occurs somewhere. -/
def checkValuePattern (v : List Char) (t : List Char) : Bool :=
  t.tails.any (fun s =>
    ('"' :: (v ++ ['"'])).isPrefixOf s &&
      (match (s.drop (v.length + 2)).dropWhile isPySpace with
       | ']' :: _ => true
       | _ => false))

/-- Index (within the whitespace run after a `]`) up to which the regex
`\]\s*$` in MULTILINE mode consumes: the longest prefix of the following
whitespace whose end is the end of input or sits immediately before a
newline.  `none` means the bracket does not match. -/
def lastNewlineIdx : List Char → Option Nat
  | [] => none
  | '\n' :: rest =>
    match lastNewlineIdx rest with
    | some k => some (k + 1)
    | none => some 0
  | _ :: rest => (lastNewlineIdx rest).map (· + 1)

def eolMatchLen (rest : List Char) : Option Nat :=
  let ws := rest.takeWhile isPySpace
  if ws.length = rest.length then some ws.length
  else lastNewlineIdx ws

/-- The replacement text `    "value"\n]` of the fallback insertion. -/
def insertedLine (v : List Char) : List Char :=
  ' ' :: ' ' :: ' ' :: ' ' :: '"' :: (v ++ ('"' :: '\n' :: [']']))

/-- `re.sub(r"\]\s*$", f"    \"{value}\"\n]", text, flags=re.MULTILINE)`:
every closing bracket that ends a line (or the file) is replaced, left to
right, scanning resuming after each match.  The fuel (the text's length
suffices, since every step consumes at least one character) only makes the
recursion structural. -/
def subEolBracketsF (v : List Char) : Nat → List Char → List Char
  | 0, l => l
  | _ + 1, [] => []
  | fuel + 1, c :: rest =>
    if c = ']' then
      match eolMatchLen rest with
      | some k => insertedLine v ++ subEolBracketsF v fuel (rest.drop k)
      | none => ']' :: subEolBracketsF v fuel rest
    else c :: subEolBracketsF v fuel rest

def subEolBrackets (v t : List Char) : List Char :=
  subEolBracketsF v t.length t

/-- Does `\]\s*$` match anywhere in the text (so the substitution really
inserts something)? -/
def hasEolBracket : List Char → Bool
  | [] => false
  | c :: rest => (c = ']' && (eolMatchLen rest).isSome) || hasEolBracket rest

/-- `ensure_line_in_json_array(file, value)`, acting on the file's text.
`some (b, t')` means the call returns `b` with the file containing `t'`
afterwards (branches that do not write leave the text unchanged); `none`
models an uncaught exception (`value in data` on a non-container parse
result raises `TypeError`, `data.append` on a parsed object or string
raises `AttributeError`). -/
def ensure_line_in_json_array (t : List Char) (v : List Char) : Option (Bool × List Char) :=
  match jsonParse t with
  | some (.arr data) =>
    if pyInArr v data then some (false, t)
    else some (true, dumpsVal (.arr (data ++ [.str v])) 0 ++ ['\n'])
  | some (.obj fields) =>
    if fields.any (fun f => f.1 == v) then some (false, t) else none
  | some (.str s) =>
    if pySubstr v s then some (false, t) else none
  | some _ => none
  | none =>
    if checkValuePattern v t then some (false, t)
    else some (true, subEolBrackets v t)

example : ensure_line_in_json_array ("[\"v\"]".toList) ("v".toList)
    = some (false, "[\"v\"]".toList) := rfl
example : ensure_line_in_json_array ("[\"a\"]".toList) ("b".toList)
    = some (true, "[\n    \"a\",\n    \"b\"\n]\n".toList) := rfl
example : ensure_line_in_json_array ("[[1,]\n]".toList) ("v".toList)
    = some (true, "[[1,    \"v\"\n]\n    \"v\"\n]".toList) := rfl
example : ensure_line_in_json_array ("[1,]".toList) ("v".toList)
    = some (true, "[1,    \"v\"\n]".toList) := rfl
example : ensure_line_in_json_array ("[1,    \"v\"\n]".toList) ("v".toList)
    = some (false, "[1,    \"v\"\n]".toList) := rfl
example : ensure_line_in_json_array ("no brackets here".toList) ("v".toList)
    = some (true, "no brackets here".toList) := rfl

/-! ### Round trip of the printer through the parser, for arrays of strings -/

theorem hexVal_hexDigitChar (m : Nat) (h : m < 16) : hexVal (hexDigitChar m) = some m := by
  interval_cases m <;> rfl

theorem parseStringBody_escape (s : List Char) :
    ∀ rest, parseStringBody (escape s ++ ('"' :: rest)) = some (s, rest) := by
  induction s with
  | nil =>
    intro rest
    show parseStringBody ('"' :: rest) = some ([], rest)
    rw [parseStringBody.eq_def]
    simp
  | cons c s ih =>
    intro rest
    rw [escape, List.append_assoc]
    by_cases h1 : c = '"'
    · subst h1
      show parseStringBody ('\\' :: '"' :: (escape s ++ ('"' :: rest))) = _
      rw [parseStringBody.eq_def]
      simp [escSimple, ih]
    by_cases h2 : c = '\\'
    · subst h2
      show parseStringBody ('\\' :: '\\' :: (escape s ++ ('"' :: rest))) = _
      rw [parseStringBody.eq_def]
      simp [escSimple, ih]
    by_cases h3 : c = '\n'
    · subst h3
      show parseStringBody ('\\' :: 'n' :: (escape s ++ ('"' :: rest))) = _
      rw [parseStringBody.eq_def]
      simp [escSimple, ih]
    by_cases h4 : c = '\t'
    · subst h4
      show parseStringBody ('\\' :: 't' :: (escape s ++ ('"' :: rest))) = _
      rw [parseStringBody.eq_def]
      simp [escSimple, ih]
    by_cases h5 : c = '\r'
    · subst h5
      show parseStringBody ('\\' :: 'r' :: (escape s ++ ('"' :: rest))) = _
      rw [parseStringBody.eq_def]
      simp [escSimple, ih]
    by_cases h6 : c = '\x08'
    · subst h6
      show parseStringBody ('\\' :: 'b' :: (escape s ++ ('"' :: rest))) = _
      rw [parseStringBody.eq_def]
      simp [escSimple, ih]
    by_cases h7 : c = '\x0c'
    · subst h7
      show parseStringBody ('\\' :: 'f' :: (escape s ++ ('"' :: rest))) = _
      rw [parseStringBody.eq_def]
      simp [escSimple, ih]
    by_cases h8 : c.toNat < 32
    · have hec : escChar c
          = ['\\', 'u', '0', '0', hexDigitChar (c.toNat / 16), hexDigitChar (c.toNat % 16)] := by
        simp [escChar, h1, h2, h3, h4, h5, h6, h7, h8]
      have e1 : hexVal (hexDigitChar (c.toNat / 16)) = some (c.toNat / 16) :=
        hexVal_hexDigitChar _ (by omega)
      have e2 : hexVal (hexDigitChar (c.toNat % 16)) = some (c.toNat % 16) :=
        hexVal_hexDigitChar _ (by omega)
      have h00 : hexVal '0' = some 0 := rfl
      have hx : hex4 '0' '0' (hexDigitChar (c.toNat / 16)) (hexDigitChar (c.toNat % 16))
          = some c.toNat := by
        unfold hex4
        rw [h00, e1, e2]
        simp only [Option.some.injEq]
        omega
      rw [hec]
      simp only [List.cons_append, List.nil_append]
      rw [parseStringBody.eq_def]
      simp [hx, ih, Char.ofNat_toNat]
    · have hec : escChar c = [c] := by simp [escChar, h1, h2, h3, h4, h5, h6, h7, h8]
      rw [hec]
      simp only [List.cons_append, List.nil_append]
      rw [parseStringBody.eq_def]
      simp [h1, h2, h8, ih]

theorem pad_one : pad 1 = [' ', ' ', ' ', ' '] := rfl

theorem skipWs_quote (X : List Char) : skipWs ('"' :: X) = '"' :: X := by
  simp [skipWs, List.dropWhile_cons, show isJsonWs '"' = false from rfl]

theorem skipWs_nl_pad_quote (X : List Char) :
    skipWs ('\n' :: (pad 1 ++ ('"' :: X))) = '"' :: X := by
  rw [pad_one]
  simp only [List.cons_append, List.nil_append]
  simp [skipWs, List.dropWhile_cons, show isJsonWs '\n' = true from rfl,
    show isJsonWs ' ' = true from rfl, show isJsonWs '"' = false from rfl]

theorem parseVal_quote (f : Nat) (s rest : List Char) :
    parseVal (f + 1) ('"' :: (escape s ++ ('"' :: rest))) = some (.str s, rest) := by
  simp only [parseVal]
  rw [skipWs_quote]
  simp [parseStringBody_escape]

theorem parseVal_sep (f : Nat) (s rest : List Char) :
    parseVal (f + 1) ('\n' :: (pad 1 ++ ('"' :: (escape s ++ ('"' :: rest)))))
      = some (.str s, rest) := by
  simp only [parseVal]
  rw [skipWs_nl_pad_quote]
  simp [parseStringBody_escape]

theorem skipWs_comma (X : List Char) : skipWs (',' :: X) = ',' :: X := by
  simp [skipWs, List.dropWhile_cons, show isJsonWs ',' = false from rfl]

theorem skipWs_nl_rbracket (X : List Char) : skipWs ('\n' :: (']' :: X)) = ']' :: X := by
  simp [skipWs, List.dropWhile_cons, show isJsonWs '\n' = true from rfl,
    show isJsonWs ']' = false from rfl]

theorem parseArrTail_dumps (vs : List (List Char)) :
    ∀ fuel rest, vs.length + 1 ≤ fuel →
    parseArrTail fuel (dumpsArrTail (vs.map .str) 1 ++ ('\n' :: (']' :: rest)))
      = some (vs.map .str, rest) := by
  induction vs with
  | nil =>
    intro fuel rest h
    obtain ⟨f, rfl⟩ : ∃ f, fuel = f + 1 := ⟨fuel - 1, by omega⟩
    simp only [List.map_nil, dumpsArrTail, List.nil_append]
    rw [parseArrTail.eq_def]
    simp [skipWs_nl_rbracket]
  | cons w ws ih =>
    intro fuel rest h
    have hlen : ws.length + 2 ≤ fuel := by simp only [List.length_cons] at h; omega
    obtain ⟨g, rfl⟩ : ∃ g, fuel = g + 1 + 1 := ⟨fuel - 2, by omega⟩
    simp only [List.map_cons, dumpsArrTail, dumpsVal]
    simp only [List.cons_append, List.append_assoc, List.nil_append]
    have hv := parseVal_sep g w (dumpsArrTail (ws.map .str) 1 ++ ('\n' :: (']' :: rest)))
    have ht := ih (g + 1) rest (by omega)
    rw [parseArrTail.eq_def]
    simp only [skipWs_comma]
    simp [hv, ht, List.cons_append, List.append_assoc]

theorem skipWs_lbracket (X : List Char) : skipWs ('[' :: X) = '[' :: X := by
  simp [skipWs, List.dropWhile_cons, show isJsonWs '[' = false from rfl]

theorem pad_zero : pad 0 = [] := rfl

theorem dumpsArrTail_length (vs : List JVal) (lvl : Nat) :
    vs.length ≤ (dumpsArrTail vs lvl).length := by
  induction vs with
  | nil => simp [dumpsArrTail]
  | cons v vs ih =>
    simp only [dumpsArrTail, List.length_cons, List.length_append]
    omega

theorem parseVal_dumps_cons (s : List Char) (ls : List (List Char)) (f : Nat) (rest : List Char)
    (hf : ls.length + 2 ≤ f) :
    parseVal f (dumpsVal (.arr ((s :: ls).map .str)) 0 ++ rest)
      = some (.arr ((s :: ls).map .str), rest) := by
  obtain ⟨g, rfl⟩ : ∃ g, f = g + 1 := ⟨f - 1, by omega⟩
  obtain ⟨g2, rfl⟩ : ∃ g2, g = g2 + 1 := ⟨g - 1, by omega⟩
  simp only [List.map_cons, dumpsVal, pad_zero]
  simp only [List.cons_append, List.append_assoc, List.nil_append]
  have hv := parseVal_quote g2 s (dumpsArrTail (ls.map .str) 1 ++ ('\n' :: (']' :: rest)))
  have ht := parseArrTail_dumps ls (g2 + 1) rest (by omega)
  rw [parseVal.eq_def]
  simp [skipWs_lbracket, skipWs_nl_pad_quote, hv, ht, List.cons_append, List.append_assoc]

/-- Round trip: re-serialising a parsed string array (with the trailing
newline the script appends) parses back to the same array. -/
theorem jsonParse_dumps_str_arr (l : List (List Char)) :
    jsonParse (dumpsVal (.arr (l.map .str)) 0 ++ ['\n']) = some (.arr (l.map .str)) := by
  cases l with
  | nil => rfl
  | cons s ls =>
    have h1 := dumpsArrTail_length (ls.map .str) 1
    simp only [List.length_map] at h1
    have hlen : ls.length + 2
        ≤ 4 * ((dumpsVal (.arr ((s :: ls).map .str)) 0 ++ ['\n']).length) + 4 := by
      simp only [List.map_cons, dumpsVal]
      simp only [List.length_append, List.length_cons, Nat.zero_add]
      omega
    unfold jsonParse
    rw [parseVal_dumps_cons s ls _ ['\n'] hlen]
    simp [show skipWs ['\n'] = [] from rfl]

theorem pyInArr_mem (v : List Char) (l : List (List Char)) :
    pyInArr v (l.map .str) = true ↔ v ∈ l := by
  induction l with
  | nil => simp [pyInArr]
  | cons x l ih =>
    simp only [List.map_cons, pyInArr, Bool.or_eq_true, beq_iff_eq, ih, List.mem_cons]
    constructor
    · rintro (hxv | hm)
      · exact Or.inl hxv.symm
      · exact Or.inr hm
    · rintro (hvx | hm)
      · exact Or.inl hvx.symm
      · exact Or.inr hm

/-- C1: the claim's universal form is wrong (see the counterexample); this
is the amended form.  If the file's text strictly parses as a JSON array
of strings, then `ensure_line_in_json_array` returns `changed=true` on the
first call exactly when the value is absent; an immediately repeated call
with the same value returns `changed=false` and leaves the file unchanged,
and the file then parses to the original array with the value appended
once (or the original array, when it was already present). -/
theorem ensure_member_idempotent_strict_arrays (t v : List Char) (l : List (List Char))
    (h : jsonParse t = some (.arr (l.map .str))) :
    (v ∈ l → ensure_line_in_json_array t v = some (false, t)) ∧
    (v ∉ l →
      ensure_line_in_json_array t v
        = some (true, dumpsVal (.arr ((l ++ [v]).map .str)) 0 ++ ['\n']) ∧
      ensure_line_in_json_array (dumpsVal (.arr ((l ++ [v]).map .str)) 0 ++ ['\n']) v
        = some (false, dumpsVal (.arr ((l ++ [v]).map .str)) 0 ++ ['\n']) ∧
      jsonParse (dumpsVal (.arr ((l ++ [v]).map .str)) 0 ++ ['\n'])
        = some (.arr ((l ++ [v]).map .str))) := by
  constructor
  · intro hv
    have hm : pyInArr v (l.map .str) = true := (pyInArr_mem v l).mpr hv
    unfold ensure_line_in_json_array
    rw [h]
    simp [hm]
  · intro hv
    have hm : pyInArr v (l.map .str) = false := by
      have : ¬ (pyInArr v (l.map .str) = true) := fun hc => hv ((pyInArr_mem v l).mp hc)
      simpa using this
    have hrt := jsonParse_dumps_str_arr (l ++ [v])
    refine ⟨?_, ?_, hrt⟩
    · unfold ensure_line_in_json_array
      rw [h]
      simp [hm, List.map_append]
    · have hm2 : pyInArr v (l.map .str ++ [.str v]) = true := by
        have := (pyInArr_mem v (l ++ [v])).mpr (by simp)
        simpa [List.map_append] using this
      unfold ensure_line_in_json_array
      rw [hrt]
      simp [hm2]

/-- C1 counterexample: on a file whose array already contains the value,
the first call already returns `changed=false`, so "changed=true on the
first call" does not hold for every target file and value. -/
theorem ensure_member_present_first_call_false :
    ensure_line_in_json_array ("[\"v\"]".toList) ("v".toList)
      = some (false, "[\"v\"]".toList) := rfl

theorem ensure_member_idempotent_strict_arrays_witness :
    ensure_line_in_json_array ("[\"a\"]".toList) (['b'])
      = some (true, dumpsVal (.arr (([['a']] ++ [['b']]).map .str)) 0 ++ ['\n']) :=
  ((ensure_member_idempotent_strict_arrays ("[\"a\"]".toList) ['b'] [['a']] rfl).2
    (by decide)).1

/-! ### The regex fallback path of the JSON array patcher (C3) -/

theorem checkValuePattern_of_infix (v a b : List Char) :
    checkValuePattern v (a ++ ('"' :: (v ++ ('"' :: '\n' :: ']' :: b)))) = true := by
  unfold checkValuePattern
  rw [List.any_eq_true]
  refine ⟨'"' :: (v ++ ('"' :: '\n' :: ']' :: b)), ?_, ?_⟩
  · rw [List.mem_tails]
    exact List.suffix_append a _
  · have hpre : ('"' :: (v ++ ['"'])).isPrefixOf ('"' :: (v ++ ('"' :: '\n' :: ']' :: b)))
        = true := by
      rw [List.isPrefixOf_iff_prefix]
      exact ⟨'\n' :: ']' :: b, by simp⟩
    rw [hpre]
    have hdrop : ('"' :: (v ++ ('"' :: '\n' :: ']' :: b))).drop (v.length + 2)
        = '\n' :: ']' :: b := by
      have hsplit : '"' :: (v ++ ('"' :: '\n' :: ']' :: b))
          = ('"' :: (v ++ ['"'])) ++ ('\n' :: ']' :: b) := by simp
      have hl : ('"' :: (v ++ ['"'])).length = v.length + 2 := by simp
      rw [hsplit, ← hl, List.drop_left]
    rw [hdrop]
    simp [List.dropWhile_cons, show isPySpace '\n' = true from rfl,
      show isPySpace ']' = false from rfl]

theorem subEolBracketsF_insert (v : List Char) :
    ∀ fuel t, t.length ≤ fuel → hasEolBracket t = true →
    ∃ a b, subEolBracketsF v fuel t = a ++ ('"' :: (v ++ ('"' :: '\n' :: ']' :: b))) := by
  intro fuel
  induction fuel with
  | zero =>
    intro t ht hb
    cases t with
    | nil => simp [hasEolBracket] at hb
    | cons c rest => simp at ht
  | succ f ih =>
    intro t ht hb
    cases t with
    | nil => simp [hasEolBracket] at hb
    | cons c rest =>
      by_cases hc : c = ']'
      · subst hc
        cases hme : eolMatchLen rest with
        | some k =>
          refine ⟨[' ', ' ', ' ', ' '], subEolBracketsF v f (rest.drop k), ?_⟩
          simp [subEolBracketsF, hme, insertedLine, List.append_assoc]
        | none =>
          have hb' : hasEolBracket rest = true := by
            simp [hasEolBracket, hme] at hb
            exact hb
          obtain ⟨a, b, hab⟩ := ih rest (by simp at ht; omega) hb'
          refine ⟨']' :: a, b, ?_⟩
          simp [subEolBracketsF, hme, hab]
      · have hb' : hasEolBracket rest = true := by
          simp [hasEolBracket, hc] at hb
          exact hb
        obtain ⟨a, b, hab⟩ := ih rest (by simp at ht; omega) hb'
        refine ⟨c :: a, b, ?_⟩
        simp [subEolBracketsF, hc, hab]

/-- C3 amended: when strict parsing fails and the value is not already
present before a closing bracket, the fallback inserts the quoted line
before EVERY closing bracket that ends a line (not only the last one, and
matched at end-of-line, not start-of-line), writes back and returns true;
in particular, whenever at least one such bracket exists, the value is
present immediately before a closing bracket afterwards. -/
theorem ensure_fallback_inserts (t v : List Char)
    (hp : jsonParse t = none) (hc : checkValuePattern v t = false)
    (hb : hasEolBracket t = true) :
    ensure_line_in_json_array t v = some (true, subEolBrackets v t) ∧
    checkValuePattern v (subEolBrackets v t) = true := by
  constructor
  · unfold ensure_line_in_json_array
    rw [hp]
    simp [hc]
  · obtain ⟨a, b, hab⟩ := subEolBracketsF_insert v t.length t (Nat.le_refl _) hb
    unfold subEolBrackets
    rw [hab]
    exact checkValuePattern_of_infix v a b

/-- C3 counterexample: on `[[1,]\n]` both line-ending closing brackets
receive an inserted quoted line — the substitution rewrites every
line-ending bracket, not a single line before the last bracket only. -/
theorem ensure_fallback_double_insertion :
    ensure_line_in_json_array ("[[1,]\n]".toList) ("v".toList)
      = some (true, "[[1,    \"v\"\n]\n    \"v\"\n]".toList)
    ∧ ("[[1,    \"v\"\n]\n    \"v\"\n]".toList).count '"' = 4 := ⟨rfl, by decide⟩

theorem ensure_fallback_inserts_witness :
    ensure_line_in_json_array ("[1,]".toList) ("v".toList)
      = some (true, subEolBrackets ("v".toList) ("[1,]".toList)) ∧
    checkValuePattern ("v".toList) (subEolBrackets ("v".toList) ("[1,]".toList)) = true :=
  ensure_fallback_inserts ("[1,]".toList) ("v".toList) rfl rfl rfl

/-! ### parse_bidders -/

/-- Python `s.split(",")`: split at every comma, keeping empty pieces. -/
def splitComma : List Char → List (List Char)
  | [] => [[]]
  | c :: rest =>
    if c = ',' then [] :: splitComma rest
    else
      match splitComma rest with
      | [] => [[c]]
      | g :: gs => (c :: g) :: gs

/-- Python `s.strip('"\'')`: strip double and single quotes (code 39)
from both ends. -/
def stripQuoteChars (l : List Char) : List Char :=
  ((l.dropWhile (fun c => c = '"' || c.toNat = 39)).reverse.dropWhile
    (fun c => c = '"' || c.toNat = 39)).reverse

/-- The elements of a parsed JSON array must all be strings, else the
comprehension's `b.strip()` raises (`AttributeError`). -/
def strElems : List JVal → Option (List (List Char))
  | [] => some []
  | .str s :: rest => (strElems rest).map (s :: ·)
  | _ :: _ => none

/-- `parse_bidders(raw)`; `none` models an uncaught exception
(`json.JSONDecodeError` on JSON-looking input that fails to parse, or
`AttributeError` on non-string array elements). -/
def parse_bidders (raw : List Char) : Option (List (List Char)) :=
  let s := pyStrip raw
  if s.isEmpty then some []
  else if s.head? = some '[' then
    match jsonParse s with
    | some (.arr elems) =>
      match strElems elems with
      | some bs => some (bs.map (fun b => stripQuoteChars (pyStrip b)))
      | none => none
    | _ => none
  else some (((splitComma s).map pyStrip).filter (fun b => !b.isEmpty))

/-- C7: the comma-separated form and the JSON-array form of the bidder
list parse to the same ordered sequence, and empty or whitespace-only
input parses to the empty sequence. -/
theorem parse_bidders_forms_agree :
    parse_bidders ("kargo, teads".toList) = some ["kargo".toList, "teads".toList]
    ∧ parse_bidders ("[\"kargo\",\"teads\"]".toList) = some ["kargo".toList, "teads".toList]
    ∧ parse_bidders ("".toList) = some []
    ∧ parse_bidders ("   ".toList) = some [] := by
  refine ⟨?_, ?_, ?_, ?_⟩ <;> rfl

/-! ### update_ams_helper -/

/-- Index of the first occurrence of a literal substring (`re.search` on
an escaped/literal pattern). -/
def findSubIdx (pat : List Char) : List Char → Option Nat
  | [] => if pat.isPrefixOf ([] : List Char) then some 0 else none
  | c :: rest =>
    if pat.isPrefixOf (c :: rest) then some 0
    else (findSubIdx pat rest).map (· + 1)

/-- `re.findall(r'"([^"]+)"', s)` as a single left-to-right scan.
State: `none` = outside a candidate match, `some acc` = after an opening
quote with `acc` the reversed content so far.  An immediately following
quote cannot close a match (the content must be nonempty), so it starts a
new candidate — exactly how the regex engine retries at the next offset. -/
def faqAux : List Char → Option (List Char) → List (List Char)
  | [], _ => []
  | c :: rest, none =>
    if c = '"' then faqAux rest (some []) else faqAux rest none
  | c :: rest, some acc =>
    if c = '"' then
      if acc.isEmpty then faqAux rest (some [])
      else acc.reverse :: faqAux rest none
    else faqAux rest (some (c :: acc))

def findallQuoted (l : List Char) : List (List Char) :=
  faqAux l none

example : findallQuoted ("x \"ab\" y \"\" z \"c\"".toList) = ["ab".toList, " z ".toList] := rfl

example : findallQuoted ("\"a\", \"b\"".toList) = [['a'], ['b']] := rfl

/-- The structural start pattern of the helper's array declaration. -/
def NETWORK_MARKER : List Char :=
  "static final String[] NETWORK_SLUGS_WITH_BID_ADAPTERS = new String[]\x7b".toList

/-- `new_items = [b for b in bidders if b not in existing_set]`. -/
def new_items (existing bidders : List (List Char)) : List (List Char) :=
  bidders.filter (fun b => !(existing.contains b))

/-- `combined = existing + new_items`. -/
def combined_items (existing bidders : List (List Char)) : List (List Char) :=
  existing ++ new_items existing bidders

def INDENT3 : List Char := ['\t', '\t', '\t']

/-- The rendered tokens: each element double-quoted, with a trailing comma
on all but the last. -/
def mkTokens : List (List Char) → List (List Char)
  | [] => []
  | item :: rest =>
    (if rest.isEmpty then '"' :: (item ++ ['"'])
     else '"' :: (item ++ ['"', ','])) :: mkTokens rest

/-- The greedy line-packing loop of `update_ams_helper` (lines 119-131 of
the script): close the line once appending the next token would exceed
100 characters; each line starts with the three-tab indent; a final
nonblank `current` is flushed right-stripped. -/
def packLoop : List (List Char) → List Char → List (List Char) → List (List Char)
  | [], current, lines =>
    if (pyStrip current).isEmpty then lines else lines ++ [pyRstrip current]
  | tok :: rest, current, lines =>
    if current.length + tok.length > 100 then
      packLoop rest (INDENT3 ++ (tok ++ [' '])) (lines ++ [pyRstrip current])
    else
      packLoop rest (current ++ (tok ++ [' '])) lines

def packLines (items : List (List Char)) : List (List Char) :=
  packLoop (mkTokens items) INDENT3 []

/-- `"\n".join(lines)`. -/
def joinLines : List (List Char) → List Char
  | [] => []
  | [l] => l
  | l :: rest => l ++ ('\n' :: joinLines rest)

/-- `update_ams_helper`, acting on the helper file's text.  `none` models
the raised errors (missing declaration or terminator; the missing-file
check happens before the text is read).  `some (b, t')` is the returned
flag and the file text afterwards. -/
def update_ams_helper (text : List Char) (bidders : List (List Char)) :
    Option (Bool × List Char) :=
  match findSubIdx NETWORK_MARKER text with
  | none => none
  | some i =>
    let start_idx := i + NETWORK_MARKER.length
    let tail := text.drop start_idx
    match findSubIdx ['\x7d', ';'] tail with
    | none => none
    | some j =>
      let array_body := tail.take j
      let existing := findallQuoted array_body
      if (new_items existing bidders).isEmpty then some (false, text)
      else
        let lines := packLines (combined_items existing bidders)
        let new_body := '\n' :: (joinLines lines ++ ('\n' :: ['\t', '\t']))
        some (true, text.take start_idx ++ (new_body ++ tail.drop j))

def c5Prefix : List Char :=
  "public class PrebidModulesHelper \x7b\n\t".toList ++ NETWORK_MARKER

def c5Suffix : List Char := "\x7d;\n\x7d\n".toList

def c5File : List Char := c5Prefix ++ ("\n\t\t\t\"alpha\"\n\t\t".toList ++ c5Suffix)

def c5New : List Char := "\n\t\t\t\"alpha\", \"beta\"\n\t\t".toList

/-- C5: on a helper file whose array holds `"alpha"`, the patcher given
`["alpha"]` alone reports `changed=false` and leaves the bytes unchanged;
given `["alpha","beta"]` it reports `changed=true`, everything before the
array start marker and after the terminator is preserved verbatim, and the
rebuilt array body holds exactly `alpha` and `beta`, with `beta` occurring
once. -/
theorem update_ams_helper_alpha_beta :
    update_ams_helper c5File ["alpha".toList] = some (false, c5File)
    ∧ update_ams_helper c5File ["alpha".toList, "beta".toList]
        = some (true, c5Prefix ++ (c5New ++ c5Suffix))
    ∧ findallQuoted c5New = ["alpha".toList, "beta".toList]
    ∧ (findallQuoted c5New).count ("beta".toList) = 1 := by
  refine ⟨?_, ?_, ?_, ?_⟩ <;> rfl

/-- C10: values occurring several times and absent from the existing
array are appended once per occurrence — new items are filtered only
against the pre-existing element set, not against each other, so the
combined list holds the identifier with its multiplicity in the input. -/
theorem combined_items_keeps_duplicates (existing bidders : List (List Char)) (v : List Char)
    (hv : existing.contains v = false) :
    (combined_items existing bidders).count v = bidders.count v := by
  unfold combined_items new_items
  rw [List.count_append]
  have hnm : v ∉ existing := by
    intro hm
    have hc : existing.contains v = true := List.elem_iff.mpr hm
    rw [hc] at hv
    exact absurd hv (by simp)
  have h0 : existing.count v = 0 := List.count_eq_zero.mpr hnm
  have hp : (fun b => !(existing.contains b)) v = true := by simpa using hnm
  rw [h0, Nat.zero_add]
  exact List.count_filter hp

theorem combined_items_keeps_duplicates_witness :
    ([['a']] : List (List Char)).contains (['b']) = false
    ∧ (combined_items [['a']] [['b'], ['b']]).count (['b'])
        = ([['b'], ['b']] : List (List Char)).count (['b']) :=
  ⟨by decide, combined_items_keeps_duplicates [['a']] [['b'], ['b']] ['b'] (by decide)⟩

/-! ### Line packing width (C4) -/

theorem pyRstrip_append (x : List Char) (c : Char) (h : isPySpace c = false) :
    pyRstrip ((x ++ [c]) ++ [' ']) = x ++ [c] := by
  simp [pyRstrip, List.reverse_append, List.dropWhile_cons, h,
    show isPySpace ' ' = true from rfl]

/-- Every rendered token ends in a non-whitespace character (`"` or `,`). -/
theorem mkTokens_last (items : List (List Char)) :
    ∀ tok ∈ mkTokens items, ∃ x c, tok = x ++ [c] ∧ isPySpace c = false := by
  induction items with
  | nil => intro tok htok; simp [mkTokens] at htok
  | cons item rest ih =>
    intro tok htok
    simp only [mkTokens, List.mem_cons] at htok
    rcases htok with h | h
    · by_cases hr : rest.isEmpty
      · refine ⟨'"' :: item, '"', ?_, rfl⟩
        rw [h, if_pos hr]
        simp
      · refine ⟨'"' :: (item ++ ['"']), ',', ?_, rfl⟩
        rw [h, if_neg hr]
        simp
    · exact ih tok h

theorem packLoop_width (items : List (List Char)) :
    ∀ toks current lines,
      (∀ t ∈ toks, t ∈ mkTokens items) →
      ((pyRstrip current).length ≤ 100 ∨
        ∃ tok, tok ∈ mkTokens items ∧ pyRstrip current = INDENT3 ++ tok ∧ 97 < tok.length) →
      (∀ l ∈ lines, l.length ≤ 100 ∨
        ∃ tok, tok ∈ mkTokens items ∧ l = INDENT3 ++ tok ∧ 97 < tok.length) →
      ∀ l ∈ packLoop toks current lines,
        l.length ≤ 100 ∨
          ∃ tok, tok ∈ mkTokens items ∧ l = INDENT3 ++ tok ∧ 97 < tok.length := by
  intro toks
  induction toks with
  | nil =>
    intro current lines hsub hcur hlines l hl
    simp only [packLoop] at hl
    by_cases he : (pyStrip current).isEmpty
    · rw [if_pos he] at hl
      exact hlines l hl
    · rw [if_neg he] at hl
      rcases List.mem_append.mp hl with h | h
      · exact hlines l h
      · rcases hcur with hc | ⟨tok, htok, heq, hlen⟩
        · left
          simp only [List.mem_singleton] at h
          rw [h]; exact hc
        · right
          simp only [List.mem_singleton] at h
          exact ⟨tok, htok, by rw [h, heq], hlen⟩
  | cons tok rest ih =>
    intro current lines hsub hcur hlines l hl
    obtain ⟨x, c, hxc, hc⟩ := mkTokens_last items tok (hsub tok (List.mem_cons_self _ _))
    simp only [packLoop] at hl
    by_cases hov : current.length + tok.length > 100
    · rw [if_pos hov] at hl
      have hstrip : pyRstrip (INDENT3 ++ (tok ++ [' '])) = INDENT3 ++ tok := by
        rw [hxc]
        have := pyRstrip_append (INDENT3 ++ x) c hc
        simpa [List.append_assoc] using this
      refine ih _ _ (fun t ht => hsub t (List.mem_cons_of_mem _ ht)) ?_ ?_ l hl
      · rw [hstrip]
        by_cases hlen : tok.length ≤ 97
        · left
          simp only [List.length_append, INDENT3, List.length_cons, List.length_nil]
          omega
        · exact Or.inr ⟨tok, hsub tok (List.mem_cons_self _ _), rfl, by omega⟩
      · intro l2 hl2
        rcases List.mem_append.mp hl2 with h2 | h2
        · exact hlines l2 h2
        · simp only [List.mem_singleton] at h2
          subst h2
          rcases hcur with hcL | ⟨tok2, htok2, heq2, hlen2⟩
          · exact Or.inl hcL
          · exact Or.inr ⟨tok2, htok2, heq2, hlen2⟩
    · rw [if_neg hov] at hl
      have hstrip : pyRstrip (current ++ (tok ++ [' '])) = current ++ tok := by
        rw [hxc]
        have := pyRstrip_append (current ++ x) c hc
        simpa [List.append_assoc] using this
      refine ih _ _ (fun t ht => hsub t (List.mem_cons_of_mem _ ht)) ?_ hlines l hl
      rw [hstrip]
      left
      simp only [List.length_append]
      omega

/-- C4 amended: a packed line never exceeds 100 characters, except when it
consists of the three-tab indent followed by a single token longer than 97
characters (so it is the 3-character indent, not the token alone, that can
carry the line past the threshold; a token of length 98-100 already
overflows the line even though the token alone does not exceed 100). -/
theorem packLines_width (items : List (List Char)) (l : List Char)
    (hl : l ∈ packLines items) :
    l.length ≤ 100 ∨
      ∃ tok, tok ∈ mkTokens items ∧ l = INDENT3 ++ tok ∧ 97 < tok.length := by
  refine packLoop_width items (mkTokens items) INDENT3 [] (fun t ht => ht) ?_ (by simp) l hl
  left
  rw [show pyRstrip INDENT3 = [] from rfl]
  simp

/-- C4 counterexample: a 96-character element renders as a 98-character
token (quotes included, no comma), which does not exceed the 100-character
threshold on its own, yet the emitted line (with the three-tab indent) has
length 101. -/
theorem packLines_width_cex :
    ((packLines [List.replicate 96 'a']).any (fun l => 100 < l.length) = true)
    ∧ ((mkTokens [List.replicate 96 'a']).all (fun tok => tok.length ≤ 100) = true) := by
  refine ⟨?_, ?_⟩ <;> decide

theorem packLines_width_witness :
    (INDENT3 ++ "\"a\"".toList) ∈ packLines [['a']]
    ∧ ((INDENT3 ++ "\"a\"".toList).length ≤ 100 ∨
        ∃ tok, tok ∈ mkTokens [['a']] ∧ INDENT3 ++ "\"a\"".toList = INDENT3 ++ tok
          ∧ 97 < tok.length) :=
  ⟨by decide, packLines_width [['a']] (INDENT3 ++ "\"a\"".toList) (by decide)⟩

/-! ### Branch name and orchestrator step order (C2, C8) -/

/-- Python string comparison (lexicographic by code point). -/
def strLe : List Char → List Char → Bool
  | [], _ => true
  | _ :: _, [] => false
  | a :: as_, b :: bs =>
    if a < b then true else if b < a then false else strLe as_ bs

def pyInsert (x : List Char) : List (List Char) → List (List Char)
  | [] => [x]
  | y :: rest => if strLe x y then x :: y :: rest else y :: pyInsert x rest

/-- `sorted(...)` on distinct strings (insertion sort; Python's stable
sort coincides with any comparison sort on distinct keys). -/
def pySort : List (List Char) → List (List Char)
  | [] => []
  | x :: rest => pyInsert x (pySort rest)

def dedupAux (seen : List (List Char)) : List (List Char) → List (List Char)
  | [] => []
  | x :: rest =>
    if seen.contains x then dedupAux seen rest
    else x :: dedupAux (x :: seen) rest

/-- `set(bidders)` keeping first occurrences (the iteration order is
irrelevant: `sorted` canonicalises it). -/
def dedupKeepFirst (l : List (List Char)) : List (List Char) :=
  dedupAux [] l

/-- `"-".join(...)`. -/
def joinDash : List (List Char) → List Char
  | [] => []
  | [x] => x
  | x :: rest => x ++ ('-' :: joinDash rest)

/-- `branch_name = f"chore/add-bidders-{'-'.join(sorted(set(bidders)))}"`
(script lines 196-197). -/
def branch_name (bidders : List (List Char)) : List Char :=
  "chore/add-bidders-".toList ++ joinDash (pySort (dedupKeepFirst bidders))

inductive Repo where
  | prebid : Repo
  | pubfig : Repo
  | ams : Repo
deriving DecidableEq

/-- The externally observable steps of `main`, in execution order. -/
inductive Ev where
  | fetch : Repo → Ev
  | checkoutBase : Repo → Ev
  | ffPull : Repo → Ev
  | resetBranch : Repo → List Char → Ev
  | patch : Repo → Ev
  | dirtyCheck : Repo → Ev
  | commitPush : Repo → Ev
  | openPR : Repo → Ev
  | revParse : Repo → Ev
deriving DecidableEq

def evRepo : Ev → Repo
  | .fetch r => r
  | .checkoutBase r => r
  | .ffPull r => r
  | .resetBranch r _ => r
  | .patch r => r
  | .dirtyCheck r => r
  | .commitPush r => r
  | .openPR r => r
  | .revParse r => r

/-- `git_prepare_branch`: fetch, checkout base, fast-forward pull,
create-or-reset branch (script lines 150-154). -/
def git_prepare_branch (r : Repo) (branch : List Char) : List Ev :=
  [.fetch r, .checkoutBase r, .ffPull r, .resetBranch r branch]

/-- `git_commit_push`: porcelain status check, then add/commit/push only
when dirty (the `dirty` flag is the oracle for the working tree state). -/
def git_commit_push (r : Repo) (dirty : Bool) : List Ev :=
  .dirtyCheck r :: (if dirty then [.commitPush r] else [])

/-- `gh_open_pr(...) if git_commit_push(...) else ""`: the commit runs
first, the PR is opened only when it committed. -/
def commit_then_pr (r : Repo) (dirty : Bool) : List Ev :=
  git_commit_push r dirty ++ (if dirty then [.openPR r] else [])

/-- The step trace of `main` (script lines 193-217): both the Prebid
modules patch and the AMS helper patch run before any branch preparation;
only the pubfig submodule sync runs after its branch preparation. -/
def mainTrace (bidders : List (List Char)) (d1 d2 d3 : Bool) : List Ev :=
  [.patch .prebid, .patch .ams]
    ++ git_prepare_branch .prebid (branch_name bidders)
    ++ commit_then_pr .prebid d1
    ++ [.revParse .prebid]
    ++ git_prepare_branch .pubfig (branch_name bidders)
    ++ [.patch .pubfig]
    ++ commit_then_pr .pubfig d2
    ++ git_prepare_branch .ams (branch_name bidders)
    ++ commit_then_pr .ams d3

/-- C2 amended: per repository, the actual step order.  The pubfig
repository follows the claimed order (prepare, then patch, then dirty
check, commit+push, PR); for the prebid and ams repositories the patch is
applied before the branch preparation, with the remaining git steps in
the claimed order. -/
theorem mainTrace_per_repo_order (bidders : List (List Char)) (d1 d2 d3 : Bool) :
    (mainTrace bidders d1 d2 d3).filter (fun e => evRepo e == Repo.prebid)
      = [.patch .prebid, .fetch .prebid, .checkoutBase .prebid, .ffPull .prebid,
          .resetBranch .prebid (branch_name bidders), .dirtyCheck .prebid]
        ++ (if d1 then [.commitPush .prebid, .openPR .prebid] else [])
        ++ [.revParse .prebid]
    ∧ (mainTrace bidders d1 d2 d3).filter (fun e => evRepo e == Repo.pubfig)
      = [.fetch .pubfig, .checkoutBase .pubfig, .ffPull .pubfig,
          .resetBranch .pubfig (branch_name bidders), .patch .pubfig, .dirtyCheck .pubfig]
        ++ (if d2 then [.commitPush .pubfig, .openPR .pubfig] else [])
    ∧ (mainTrace bidders d1 d2 d3).filter (fun e => evRepo e == Repo.ams)
      = [.patch .ams, .fetch .ams, .checkoutBase .ams, .ffPull .ams,
          .resetBranch .ams (branch_name bidders), .dirtyCheck .ams]
        ++ (if d3 then [.commitPush .ams, .openPR .ams] else []) := by
  cases d1 <;> cases d2 <;> cases d3 <;> exact ⟨rfl, rfl, rfl⟩

/-- C2 counterexample: in the actual trace the prebid patch happens
before the prebid fetch — the patch is not applied after branch
preparation as claimed (the same holds for the ams patch). -/
theorem mainTrace_patch_before_prepare_cex :
    (mainTrace ["kargo".toList] true true true).indexOf (Ev.patch .prebid)
        < (mainTrace ["kargo".toList] true true true).indexOf (Ev.fetch .prebid)
    ∧ (mainTrace ["kargo".toList] true true true).indexOf (Ev.patch .ams)
        < (mainTrace ["kargo".toList] true true true).indexOf (Ev.fetch .ams) := by
  refine ⟨?_, ?_⟩ <;> decide

theorem strLe_total (a : List Char) : ∀ b, strLe a b = true ∨ strLe b a = true := by
  induction a with
  | nil => intro b; left; simp [strLe]
  | cons x as ih =>
    intro b
    cases b with
    | nil => right; simp [strLe]
    | cons y bs =>
      rcases lt_trichotomy x y with h | h | h
      · left; simp [strLe, h]
      · subst h
        rcases ih bs with h2 | h2
        · left; simp [strLe, lt_irrefl, h2]
        · right; simp [strLe, lt_irrefl, h2]
      · right; simp [strLe, h]

theorem strLe_trans (a : List Char) :
    ∀ b c, strLe a b = true → strLe b c = true → strLe a c = true := by
  induction a with
  | nil => intro b c h1 h2; simp [strLe]
  | cons x as ih =>
    intro b c h1 h2
    cases b with
    | nil => simp [strLe] at h1
    | cons y bs =>
      cases c with
      | nil => simp [strLe] at h2
      | cons z cs =>
        simp only [strLe] at h1 h2 ⊢
        rcases lt_trichotomy x y with hxy | hxy | hxy
        · rcases lt_trichotomy y z with hyz | hyz | hyz
          · simp [lt_trans hxy hyz]
          · subst hyz; simp [hxy]
          · rw [if_neg (lt_asymm hyz), if_pos hyz] at h2
            exact absurd h2 (by simp)
        · subst hxy
          rw [if_neg (lt_irrefl x), if_neg (lt_irrefl x)] at h1
          rcases lt_trichotomy x z with hxz | hxz | hxz
          · simp [hxz]
          · subst hxz
            rw [if_neg (lt_irrefl x), if_neg (lt_irrefl x)] at h2 ⊢
            exact ih bs cs h1 h2
          · rw [if_neg (lt_asymm hxz), if_pos hxz] at h2
            exact absurd h2 (by simp)
        · rw [if_neg (lt_asymm hxy), if_pos hxy] at h1
          exact absurd h1 (by simp)

theorem pyInsert_mem (x : List Char) (l : List (List Char)) (y : List Char) :
    y ∈ pyInsert x l ↔ y = x ∨ y ∈ l := by
  induction l with
  | nil => simp [pyInsert]
  | cons z rest ih =>
    simp only [pyInsert]
    by_cases h : strLe x z = true
    · rw [if_pos h]
      simp [List.mem_cons]
    · rw [if_neg h]
      simp only [List.mem_cons, ih]
      tauto

theorem pyInsert_sorted (x : List Char) (l : List (List Char))
    (h : l.Pairwise (fun a b => strLe a b = true)) :
    (pyInsert x l).Pairwise (fun a b => strLe a b = true) := by
  induction l with
  | nil => simp [pyInsert]
  | cons z rest ih =>
    rcases List.pairwise_cons.mp h with ⟨hz, hrest⟩
    simp only [pyInsert]
    by_cases hxz : strLe x z = true
    · rw [if_pos hxz]
      refine List.pairwise_cons.mpr ⟨?_, h⟩
      intro b hb
      rcases List.mem_cons.mp hb with rfl | hb
      · exact hxz
      · exact strLe_trans x z b hxz (hz b hb)
    · rw [if_neg hxz]
      refine List.pairwise_cons.mpr ⟨?_, ih hrest⟩
      intro b hb
      rcases (pyInsert_mem x rest b).mp hb with heq | hb2
      · rw [heq]
        rcases strLe_total x z with h1 | h1
        · exact absurd h1 hxz
        · exact h1
      · exact hz b hb2

theorem pyInsert_nodup (x : List Char) (l : List (List Char)) (hx : x ∉ l) (h : l.Nodup) :
    (pyInsert x l).Nodup := by
  induction l with
  | nil => simp [pyInsert]
  | cons z rest ih =>
    rcases List.nodup_cons.mp h with ⟨hz, hrest⟩
    simp only [pyInsert]
    by_cases hxz : strLe x z = true
    · rw [if_pos hxz]
      exact List.nodup_cons.mpr ⟨hx, h⟩
    · rw [if_neg hxz]
      refine List.nodup_cons.mpr
        ⟨?_, ih (fun hm => hx (List.mem_cons_of_mem _ hm)) hrest⟩
      intro hm
      rcases (pyInsert_mem x rest z).mp hm with heq | hm2
      · rw [heq] at hx
        exact hx (List.mem_cons_self _ _)
      · exact hz hm2

theorem pySort_mem (l : List (List Char)) (y : List Char) : y ∈ pySort l ↔ y ∈ l := by
  induction l with
  | nil => simp [pySort]
  | cons x rest ih => simp [pySort, pyInsert_mem, ih]

theorem pySort_sorted (l : List (List Char)) :
    (pySort l).Pairwise (fun a b => strLe a b = true) := by
  induction l with
  | nil => simp [pySort]
  | cons x rest ih =>
    simp only [pySort]
    exact pyInsert_sorted x _ ih

theorem pySort_nodup (l : List (List Char)) (h : l.Nodup) : (pySort l).Nodup := by
  induction l with
  | nil => simp [pySort]
  | cons x rest ih =>
    rcases List.nodup_cons.mp h with ⟨hx, hrest⟩
    simp only [pySort]
    exact pyInsert_nodup x _ (fun hm => hx ((pySort_mem rest x).mp hm)) (ih hrest)

theorem dedupAux_mem (l : List (List Char)) :
    ∀ seen y, y ∈ dedupAux seen l ↔ y ∈ l ∧ ¬ y ∈ seen := by
  induction l with
  | nil => intro seen y; simp [dedupAux]
  | cons x rest ih =>
    intro seen y
    simp only [dedupAux]
    by_cases hx : seen.contains x = true
    · rw [if_pos hx, ih seen y]
      simp only [List.mem_cons]
      constructor
      · rintro ⟨hm, hs⟩
        exact ⟨Or.inr hm, hs⟩
      · rintro ⟨hor, hs⟩
        rcases hor with rfl | hm
        · exact absurd (List.elem_iff.mp hx) hs
        · exact ⟨hm, hs⟩
    · rw [if_neg hx]
      simp only [List.mem_cons, ih (x :: seen) y, List.mem_cons]
      constructor
      · rintro (rfl | ⟨hm, hs⟩)
        · exact ⟨Or.inl rfl, fun hmem => hx (List.elem_iff.mpr hmem)⟩
        · exact ⟨Or.inr hm, fun hmem => hs (Or.inr hmem)⟩
      · rintro ⟨hor, hs⟩
        by_cases hyx : y = x
        · exact Or.inl hyx
        · rcases hor with rfl | hm
          · exact absurd rfl hyx
          · refine Or.inr ⟨hm, ?_⟩
            rintro (h' | h')
            · exact hyx h'
            · exact hs h'

theorem dedupAux_nodup (l : List (List Char)) : ∀ seen, (dedupAux seen l).Nodup := by
  induction l with
  | nil => intro seen; simp [dedupAux]
  | cons x rest ih =>
    intro seen
    simp only [dedupAux]
    by_cases hx : seen.contains x = true
    · rw [if_pos hx]
      exact ih seen
    · rw [if_neg hx]
      refine List.nodup_cons.mpr ⟨?_, ih (x :: seen)⟩
      intro hm
      rcases (dedupAux_mem rest (x :: seen) x).mp hm with ⟨_, hs⟩
      exact hs (List.mem_cons_self _ _)

/-- C8: the branch name is `chore/add-bidders-` followed by the
deduplicated, sorted, dash-joined bidder list — the joined list is sorted,
has no duplicates and has exactly the input's elements; concretely the
name is `chore/add-bidders-kargo-teads` for `["teads","kargo","kargo"]` —
and one invocation resets all three repositories to that single branch
name. -/
theorem branch_name_shared (bidders : List (List Char)) (d1 d2 d3 : Bool) :
    branch_name ["teads".toList, "kargo".toList, "kargo".toList]
      = "chore/add-bidders-kargo-teads".toList
    ∧ (mainTrace bidders d1 d2 d3).filterMap
        (fun e => match e with
          | Ev.resetBranch _ b => some b
          | _ => none)
      = [branch_name bidders, branch_name bidders, branch_name bidders]
    ∧ (pySort (dedupKeepFirst bidders)).Pairwise (fun a b => strLe a b = true)
    ∧ (pySort (dedupKeepFirst bidders)).Nodup
    ∧ (∀ x, x ∈ pySort (dedupKeepFirst bidders) ↔ x ∈ bidders) := by
  refine ⟨by decide, ?_, pySort_sorted _, pySort_nodup _ (dedupAux_nodup bidders []), ?_⟩
  · cases d1 <;> cases d2 <;> cases d3 <;> rfl
  · intro x
    rw [dedupKeepFirst, pySort_mem, dedupAux_mem bidders [] x]
    simp

/-! ### The command runner (C6) -/

/-- The outcome of the spawned child process (exit status and captured
streams): the oracle for `subprocess.run`. -/
structure ProcResult where
  returncode : Int
  stdout : String
  stderr : String
deriving DecidableEq

/-- `subprocess.CalledProcessError`: it carries the command, the exit
code and the two captured streams — there is no working-directory field. -/
structure CalledProcessError where
  cmd : List String
  returncode : Int
  stdout : String
  stderr : String
deriving DecidableEq

/-- The lines of the diagnostic block `run` writes to stderr on failure. -/
def diagLines (cmd : List String) (cwd : Option String) (getcwd : String)
    (res : ProcResult) : List String :=
  ["[run] Command failed",
   "[run] cwd: " ++ (match cwd with | some p => p | none => getcwd),
   "[run] cmd: " ++ String.intercalate " " cmd,
   "[run] exit_code: " ++ toString res.returncode,
   "[run] --- stdout ---",
   res.stdout,
   "[run] --- stderr ---",
   res.stderr,
   "[run] ---------------"]

/-- `run(cmd, cwd, check, ...)` given the child's outcome `res`: returns
the list of stderr writes and either the completed process or the raised
`CalledProcessError`. -/
def run (cmd : List String) (cwd : Option String) (check : Bool) (getcwd : String)
    (res : ProcResult) : List String × Except CalledProcessError ProcResult :=
  if check && !(res.returncode == 0) then
    ([String.intercalate "\n" (diagLines cmd cwd getcwd res) ++ "\n"],
     .error ⟨cmd, res.returncode, res.stdout, res.stderr⟩)
  else ([], .ok res)

/-- C6 amended: on nonzero exit with checking enabled, `run` writes the
diagnostic block — which contains the command, the working directory, the
exit code and both captured streams — and fails with a
`CalledProcessError` carrying the command, the exit code and both
streams (but not the working directory, which only reaches the
diagnostic block). -/
theorem run_failure_diagnostics (cmd : List String) (cwd : Option String) (getcwd : String)
    (res : ProcResult) (hc : res.returncode ≠ 0) :
    run cmd cwd true getcwd res
      = ([String.intercalate "\n" (diagLines cmd cwd getcwd res) ++ "\n"],
         .error ⟨cmd, res.returncode, res.stdout, res.stderr⟩)
    ∧ ("[run] cwd: " ++ (match cwd with | some p => p | none => getcwd))
        ∈ diagLines cmd cwd getcwd res
    ∧ ("[run] cmd: " ++ String.intercalate " " cmd) ∈ diagLines cmd cwd getcwd res
    ∧ ("[run] exit_code: " ++ toString res.returncode) ∈ diagLines cmd cwd getcwd res
    ∧ res.stdout ∈ diagLines cmd cwd getcwd res
    ∧ res.stderr ∈ diagLines cmd cwd getcwd res := by
  refine ⟨?_, ?_, ?_, ?_, ?_, ?_⟩
  · unfold run
    rw [if_pos (by simp [hc])]
  all_goals simp [diagLines]

/-- C6 counterexample: two runs differing only in the working directory
raise equal errors (the error does not carry the working directory), even
though their diagnostic blocks differ. -/
theorem run_error_lacks_cwd_cex :
    (run ["git"] (some "/a") true "/w" ⟨1, "o", "e"⟩).2
      = (run ["git"] (some "/b") true "/w" ⟨1, "o", "e"⟩).2
    ∧ (run ["git"] (some "/a") true "/w" ⟨1, "o", "e"⟩).1
      ≠ (run ["git"] (some "/b") true "/w" ⟨1, "o", "e"⟩).1 :=
  ⟨rfl, by decide⟩

theorem run_failure_diagnostics_witness :
    ((1 : Int) ≠ 0)
    ∧ (run ["git", "fetch"] (some "/repo") true "/w" ⟨1, "out", "err"⟩
        = ([String.intercalate "\n"
              (diagLines ["git", "fetch"] (some "/repo") "/w" ⟨1, "out", "err"⟩) ++ "\n"],
           .error ⟨["git", "fetch"], 1, "out", "err"⟩)
      ∧ ("[run] cwd: " ++ "/repo")
          ∈ diagLines ["git", "fetch"] (some "/repo") "/w" ⟨1, "out", "err"⟩
      ∧ ("[run] cmd: " ++ String.intercalate " " ["git", "fetch"])
          ∈ diagLines ["git", "fetch"] (some "/repo") "/w" ⟨1, "out", "err"⟩
      ∧ ("[run] exit_code: " ++ toString (1 : Int))
          ∈ diagLines ["git", "fetch"] (some "/repo") "/w" ⟨1, "out", "err"⟩
      ∧ "out" ∈ diagLines ["git", "fetch"] (some "/repo") "/w" ⟨1, "out", "err"⟩
      ∧ "err" ∈ diagLines ["git", "fetch"] (some "/repo") "/w" ⟨1, "out", "err"⟩) :=
  ⟨by decide, run_failure_diagnostics ["git", "fetch"] (some "/repo") "/w" ⟨1, "out", "err"⟩
      (by decide)⟩

/-! ### Submodule sync (C9) -/

/-- The version-control commands `sync_pubfig_submodule_to_prebid_sha`
can spawn. -/
inductive SubCmd where
  | submoduleUpdateInit : List Char → SubCmd
  | fetchAll : List Char → SubCmd
  | checkoutSha : List Char → List Char → SubCmd
  | addPath : List Char → SubCmd
  | statusPorcelain : SubCmd
deriving DecidableEq

/-- `sync_pubfig_submodule_to_prebid_sha`: the spawned commands and the
returned flag, given whether `.gitmodules` exists and the porcelain
status output. -/
def sync_pubfig_submodule_to_prebid_sha (gitmodulesExists : Bool)
    (path sha statusOut : List Char) : List SubCmd × Bool :=
  if !gitmodulesExists then ([], false)
  else
    ([.submoduleUpdateInit path, .fetchAll path, .checkoutSha path sha,
      .addPath path, .statusPorcelain],
     !(pyStrip statusOut).isEmpty)

/-- C9: without a `.gitmodules` file the sync returns `changed=false` and
spawns no version-control command at all. -/
theorem sync_no_gitmodules (path sha statusOut : List Char) :
    sync_pubfig_submodule_to_prebid_sha false path sha statusOut = ([], false) := rfl

end AmsPoc
